import Mathlib

set_option maxHeartbeats 1000000

/-! Shallow embedding of the sparse Merkle tree (`merkle_tree/tree.rs`) and
its circuit-side reconstruction logic (`merkle_tree/circuits.rs`).

Modelling choices:
- field elements are an arbitrary inhabited type `F`;
- the Poseidon pair hash determined by a `PoseidonConstants` value is
  modelled by storing the pair-hash function itself wherever the source
  stores the constants;
- `HashMap` becomes a function into `Option`, with `mapInsert` for insert;
- the `while !path.is_empty()` loops of `update` and `prove`, which pop the
  last bit of the path, are written as structural recursion over the
  reversed path (the head of the reversed path is the popped bit). -/

/-- Can be a leaf of Merkle trees: the `Leafable` trait of the source, with
its `empty_leaf` and `hash` items. -/
structure Leafable (F V : Type) where
  empty_leaf : V
  hash : V → F

/-- The blanket `impl Leafable<F> for F` of the source: `empty_leaf` is the
default (zero) field element and `hash` is the identity. -/
def Leafable.selfInst (F : Type) [Inhabited F] : Leafable F F :=
  ⟨default, fun x => x⟩

/-- Finite-map update, modelling `HashMap::insert`. -/
def mapInsert {α β : Type} [DecidableEq α] (m : α → Option β) (k : α) (v : β) :
    α → Option β :=
  fun q => if q = k then some v else m q

/-- usize to big endian bool vec: the source pushes the low bit of `x` and
shifts right, `length` times, then reverses, so position j of the result
holds bit (length − 1 − j) of `x`; `Nat.testBit x k` is `(x >>> k) &&& 1 = 1`
as in the source loop. -/
def usize_to_vec (x length : Nat) : List Bool :=
  ((List.range length).map (fun k => x.testBit k)).reverse

/-- The inverse direction of the path codec, folding bits most significant
first; used to reason about which index a path denotes. -/
def vec_to_usize (v : List Bool) : Nat :=
  v.foldl (fun acc b => 2 * acc + (if b then 1 else 0)) 0

/-- Flip the last entry of a path, as `get_sibling_hash` does in place with
`path[last] = !path[last]`. -/
def flipLast : List Bool → List Bool
  | [] => []
  | [b] => [!b]
  | b :: rest => b :: flipLast rest

/-- `q` is an initial segment of `p`: the cache keys rewritten by an update
along a full path `p` are exactly the initial segments of `p`. -/
def startsWith (p q : List Bool) : Prop :=
  p.take q.length = q

instance (p q : List Bool) : Decidable (startsWith p q) := by
  unfold startsWith; infer_instance

/-- The sparse Merkle tree state of the source: stored pair-hash constants,
height, the node-hash cache, the leaf map and the precomputed zero-subtree
hashes. -/
structure MerkleTree (F V : Type) where
  poseidon_constants : F → F → F
  height : Nat
  node_hashes : List Bool → Option F
  leaves : Nat → Option V
  zero_hashes : List F

/-- Hash of a fully empty subtree with `k` levels below it: `zhash 0` is the
empty-leaf hash, `zhash (k+1) = Hash(zhash k, zhash k)`. -/
def zhash {F V : Type} (constants : F → F → F) (L : Leafable F V) : Nat → F
  | 0 => L.hash L.empty_leaf
  | k + 1 => constants (zhash constants L k) (zhash constants L k)

/-- `MerkleTree::new`: empty caches; the source builds
`[zhash 0, …, zhash height]` iteratively and reverses it, so entry d of
`zero_hashes` is `zhash (height − d)`. -/
def MerkleTree.new {F V : Type} (constants : F → F → F) (L : Leafable F V)
    (height : Nat) : MerkleTree F V :=
  { poseidon_constants := constants
    height := height
    node_hashes := fun _ => none
    leaves := fun _ => none
    zero_hashes := ((List.range (height + 1)).map (zhash constants L)).reverse }

/-- Cache lookup with zero-subtree default, the body of `get_node_hash`
expressed over a raw cache and zero-hash table (the source's
`assert!(path.len() <= self.height)` is a debug bound; on every path the
code ever looks up, the `getD` default is never reached). -/
def nodeHashMap {F : Type} [Inhabited F] (zh : List F)
    (nh : List Bool → Option F) (path : List Bool) : F :=
  match nh path with
  | some h => h
  | none => zh.getD path.length default

/-- `MerkleTree::get_node_hash`. -/
def MerkleTree.get_node_hash {F V : Type} [Inhabited F] (t : MerkleTree F V)
    (path : List Bool) : F :=
  nodeHashMap t.zero_hashes t.node_hashes path

/-- `MerkleTree::get_sibling_hash`: node hash at the path with its last bit
flipped. -/
def MerkleTree.get_sibling_hash {F V : Type} [Inhabited F] (t : MerkleTree F V)
    (path : List Bool) : F :=
  t.get_node_hash (flipLast path)

/-- `MerkleTree::get_root`: node hash at the empty path. -/
def MerkleTree.get_root {F V : Type} [Inhabited F] (t : MerkleTree F V) : F :=
  t.get_node_hash []

/-- `MerkleTree::get_leaf`: stored value or the canonical empty leaf. -/
def MerkleTree.get_leaf {F V : Type} (t : MerkleTree F V) (L : Leafable F V)
    (index : Nat) : V :=
  match t.leaves index with
  | some leaf => leaf
  | none => L.empty_leaf

/-- The `while !path.is_empty()` loop of `update`, recursing on the reversed
path: for current path `rest.reverse ++ [b]`, the source reads the sibling
hash, pops the last bit `b`, hashes `(sibling, h)` when `b` is set and
`(h, sibling)` otherwise, and stores the result at the shortened path. -/
def updateLoop {F : Type} [Inhabited F] (constants : F → F → F) (zh : List F) :
    (List Bool → Option F) → F → List Bool → (List Bool → Option F) × F
  | nh, h, [] => (nh, h)
  | nh, h, b :: rest =>
      let sibling := nodeHashMap zh nh (flipLast (rest.reverse ++ [b]))
      let h2 := if b then constants sibling h else constants h sibling
      updateLoop constants zh (mapInsert nh rest.reverse h2) h2 rest

/-- `MerkleTree::update`: store the leaf, store its hash at the full path,
then walk to the root recomputing each ancestor; the Rust method has unit
return type, so the new state is the whole result. -/
def MerkleTree.update {F V : Type} [Inhabited F] (t : MerkleTree F V)
    (L : Leafable F V) (index : Nat) (leaf : V) : MerkleTree F V :=
  let path := usize_to_vec index t.height
  let h := L.hash leaf
  { t with
    leaves := mapInsert t.leaves index leaf
    node_hashes :=
      (updateLoop t.poseidon_constants t.zero_hashes
        (mapInsert t.node_hashes path h) h path.reverse).1 }

/-- `MerkleTree::remove`: update with the empty leaf. -/
def MerkleTree.remove {F V : Type} [Inhabited F] (t : MerkleTree F V)
    (L : Leafable F V) (index : Nat) : MerkleTree F V :=
  t.update L index L.empty_leaf

/-- The `while` loop of `prove`, recursing on the reversed path: collect the
sibling hash of the current path `rest.reverse ++ [b]`, then pop. -/
def proveLoop {F : Type} [Inhabited F] (zh : List F)
    (nh : List Bool → Option F) : List Bool → List F
  | [] => []
  | b :: rest =>
      nodeHashMap zh nh (flipLast (rest.reverse ++ [b])) :: proveLoop zh nh rest

/-- `MerkleTree::prove`: ordered sibling hashes, leaf-adjacent first. -/
def MerkleTree.prove {F V : Type} [Inhabited F] (t : MerkleTree F V)
    (index : Nat) : List F :=
  proveLoop t.zero_hashes t.node_hashes (usize_to_vec index t.height).reverse

/-- One conditional-swap-then-hash level (`InternalHashCircuit`): the stored
constants are modelled as the pair-hash function they determine. -/
structure InternalHashCircuit (F : Type) where
  constants : F → F → F
  sibling : F
  lr_bit : Bool

/-- `InternalHashCircuit::arity`. -/
def InternalHashCircuit.arity {F : Type} (_ : InternalHashCircuit F) : Nat := 1

/-- `InternalHashCircuit::output`: native evaluation; the preimage pair is
`(sibling, z0)` when `lr_bit` is set, `(z0, sibling)` otherwise. -/
def InternalHashCircuit.output {F : Type} [Inhabited F]
    (c : InternalHashCircuit F) (z : List F) : List F :=
  let preimage :=
    if c.lr_bit then (c.sibling, z.getD 0 default) else (z.getD 0 default, c.sibling)
  [c.constants preimage.1 preimage.2]

/-- `AllocatedNum::conditionally_reverse`: swaps the pair when the condition
bit is set. -/
def conditionally_reverse {F : Type} (a b : F) (condition : Bool) : F × F :=
  if condition then (b, a) else (a, b)

/-- `InternalHashCircuit::synthesize`, at the level of the values assigned to
the allocated wires: allocate the sibling and the direction bit,
conditionally reverse `(z0, sibling)`, and apply the hash gadget (whose
assignment is bit-identical to the native hash on the same constants). -/
def InternalHashCircuit.synthesize {F : Type} [Inhabited F]
    (c : InternalHashCircuit F) (z : List F) : List F :=
  let sibling := c.sibling
  let lr_bit := c.lr_bit
  let lr := conditionally_reverse (z.getD 0 default) sibling lr_bit
  [c.constants lr.1 lr.2]

/-- `MerkleInclusionCircuit`: reconstruct a root from a value, an index and
a sibling path. -/
structure MerkleInclusionCircuit (F : Type) where
  constants : F → F → F
  siblings : List F
  index : Nat
  value : F

/-- `MerkleInclusionCircuit::output`: plain reconstruction; the path bits are
consumed in reverse (leaf-adjacent first), zipped with the siblings. -/
def MerkleInclusionCircuit.output {F : Type} [Inhabited F]
    (c : MerkleInclusionCircuit F) : List F :=
  let path := usize_to_vec c.index c.siblings.length
  let result :=
    (path.reverse.zip c.siblings).foldl
      (fun result p =>
        (InternalHashCircuit.mk c.constants p.2 p.1).output result)
      [c.value]
  [result.getD 0 default]

/-- `MerkleInclusionCircuit::synthesize`, at the level of assigned values:
allocate the value, then apply the per-level gadget in the same order. -/
def MerkleInclusionCircuit.synthesize {F : Type} [Inhabited F]
    (c : MerkleInclusionCircuit F) : List F :=
  let value := c.value
  let path := usize_to_vec c.index c.siblings.length
  let result :=
    (path.reverse.zip c.siblings).foldl
      (fun result p =>
        (InternalHashCircuit.mk c.constants p.2 p.1).synthesize result)
      [value]
  [result.getD 0 default]

/-- `MerkleProcessCircuit`: one update step, two reconstructions sharing one
sibling path. -/
structure MerkleProcessCircuit (F : Type) where
  constants : F → F → F
  siblings : List F
  index : Nat
  old_value : F
  new_value : F

/-- `MerkleProcessCircuit::arity`. -/
def MerkleProcessCircuit.arity {F : Type} (_ : MerkleProcessCircuit F) : Nat := 1

/-- `MerkleProcessCircuit::output`: the source's
`assert_eq!(old_result[0], z[0])` is modelled as `Option`, `none` standing
for the panic; on success the single new root is returned. -/
def MerkleProcessCircuit.output {F : Type} [Inhabited F] [DecidableEq F]
    (c : MerkleProcessCircuit F) (z : List F) : Option (List F) :=
  let old_circuit : MerkleInclusionCircuit F :=
    ⟨c.constants, c.siblings, c.index, c.old_value⟩
  let old_result := old_circuit.output
  if old_result.getD 0 default = z.getD 0 default then
    let new_circuit : MerkleInclusionCircuit F :=
      ⟨c.constants, c.siblings, c.index, c.new_value⟩
    some [new_circuit.output.getD 0 default]
  else
    none

/-- Trees reachable from `MerkleTree::new` by `update` and `remove` calls at
arbitrary indices. -/
inductive Reachable {F V : Type} [Inhabited F] (L : Leafable F V) :
    MerkleTree F V → Prop where
  | new (constants : F → F → F) (height : Nat) :
      Reachable L (MerkleTree.new constants L height)
  | update {t : MerkleTree F V} (index : Nat) (leaf : V) :
      Reachable L t → Reachable L (t.update L index leaf)
  | remove {t : MerkleTree F V} (index : Nat) :
      Reachable L t → Reachable L (t.remove L index)

/-- Trees reachable from `MerkleTree::new` by `update` calls at in-range
indices only. -/
inductive ReachableIn {F V : Type} [Inhabited F] (L : Leafable F V) :
    MerkleTree F V → Prop where
  | new (constants : F → F → F) (height : Nat) :
      ReachableIn L (MerkleTree.new constants L height)
  | update {t : MerkleTree F V} (index : Nat) (leaf : V) :
      index < 2 ^ t.height → ReachableIn L t →
      ReachableIn L (t.update L index leaf)

/-- The zero-hash table holds the zero-subtree hashes: entry d is
`zhash (height − d)`. -/
def ZhGood {F V : Type} [Inhabited F] (constants : F → F → F)
    (L : Leafable F V) (height : Nat) (zh : List F) : Prop :=
  ∀ d, d ≤ height → zh.getD d default = zhash constants L (height - d)

/-- Structural well-formedness of a tree state: correct zero-hash table,
ancestor-closed cache, and the node-hash cache invariant at every cached
internal path. -/
structure WF {F V : Type} [Inhabited F] (L : Leafable F V)
    (t : MerkleTree F V) : Prop where
  zh_good : ZhGood t.poseidon_constants L t.height t.zero_hashes
  closed : ∀ q b, t.node_hashes (q ++ [b]) ≠ none → t.node_hashes q ≠ none
  invA : ∀ p h, p.length < t.height → t.node_hashes p = some h →
    h = t.poseidon_constants (t.get_node_hash (p ++ [false]))
      (t.get_node_hash (p ++ [true]))

/-- Every in-range full leaf path carries the hash of the stored leaf. -/
def InvLeaf {F V : Type} [Inhabited F] (L : Leafable F V)
    (t : MerkleTree F V) : Prop :=
  ∀ i, i < 2 ^ t.height →
    t.get_node_hash (usize_to_vec i t.height) = L.hash (t.get_leaf L i)

/-- A concrete pair hash on naturals used to exercise the definitions. -/
def natHash : Nat → Nat → Nat := fun a b => 2 * a + 3 * b + 1

/-- The `Leafable` instance for naturals standing in for field elements. -/
def natLeaf : Leafable Nat Nat := ⟨0, fun x => x⟩

/-- A height-1 tree after one update. -/
def exTree1 : MerkleTree Nat Nat :=
  (MerkleTree.new natHash natLeaf 1).update natLeaf 0 5

/-- A height-2 tree after one update. -/
def exTree2 : MerkleTree Nat Nat :=
  (MerkleTree.new natHash natLeaf 2).update natLeaf 1 7

/-! ### Basic path and codec lemmas -/

theorem flipLast_concat (q : List Bool) (b : Bool) :
    flipLast (q ++ [b]) = q ++ [!b] := by
  induction q with
  | nil => rfl
  | cons a q ih =>
      cases q with
      | nil => rfl
      | cons c q => simpa [flipLast] using ih

theorem startsWith_length {p q : List Bool} (h : startsWith p q) :
    q.length ≤ p.length := by
  unfold startsWith at h
  have := congrArg List.length h
  simp [List.length_take] at this
  omega

theorem startsWith_refl (p : List Bool) : startsWith p p := by
  simp [startsWith, List.take_length]

theorem startsWith_take (p : List Bool) (k : Nat) (hk : k ≤ p.length) :
    startsWith p (p.take k) := by
  simp [startsWith, List.length_take, List.take_take, Nat.min_eq_left hk]

theorem startsWith_of_concat {p : List Bool} {q : List Bool} {b : Bool}
    (h : startsWith (p ++ [b]) q) (hle : q.length ≤ p.length) :
    startsWith p q := by
  unfold startsWith at h ⊢
  rw [List.take_append_eq_append_take] at h
  rw [Nat.sub_eq_zero_of_le hle] at h
  simpa using h

theorem startsWith_concat_of {p q : List Bool} {b : Bool}
    (h : startsWith p q) : startsWith (p ++ [b]) q := by
  unfold startsWith at h ⊢
  rw [List.take_append_eq_append_take, Nat.sub_eq_zero_of_le (startsWith_length h)]
  simpa using h

theorem startsWith_eq_of_length {p q : List Bool} (h : startsWith p q)
    (hl : q.length = p.length) : q = p := by
  unfold startsWith at h
  rw [hl, List.take_length] at h
  exact h.symm

theorem not_startsWith_sibling {p q : List Bool} {b : Bool}
    (h : startsWith p (q ++ [b])) : ¬ startsWith p (q ++ [!b]) := by
  intro h2
  unfold startsWith at h h2
  have hlen : (q ++ [b]).length = (q ++ [!b]).length := by simp
  rw [hlen] at h
  rw [h] at h2
  have := List.append_inj_right h2 rfl
  simp at this

theorem startsWith_concat_elim {p q : List Bool} (h : startsWith p q)
    (hlt : q.length < p.length) :
    ∃ b, startsWith p (q ++ [b]) := by
  refine ⟨p.get ⟨q.length, hlt⟩, ?_⟩
  have hb : p[q.length]? = some (p.get ⟨q.length, hlt⟩) := by
    rw [List.getElem?_eq_getElem hlt]
    rfl
  unfold startsWith at h ⊢
  have hstep : p.take (q.length + 1) = p.take q.length ++ p[q.length]?.toList :=
    List.take_succ
  rw [List.length_append, List.length_singleton, hstep, h, hb]
  rfl

/-! ### Path codec lemmas -/

theorem usize_to_vec_length (x n : Nat) : (usize_to_vec x n).length = n := by
  simp [usize_to_vec]

theorem usize_to_vec_succ (x n : Nat) :
    usize_to_vec x (n + 1) = x.testBit n :: usize_to_vec x n := by
  simp [usize_to_vec, List.range_succ]

theorem usize_to_vec_congr {x y : Nat} (n : Nat)
    (h : ∀ k, k < n → x.testBit k = y.testBit k) :
    usize_to_vec x n = usize_to_vec y n := by
  unfold usize_to_vec
  congr 1
  refine List.map_congr_left ?_
  intro k hk
  exact h k (List.mem_range.mp hk)

theorem usize_to_vec_mod (x n : Nat) :
    usize_to_vec x n = usize_to_vec (x % 2 ^ n) n := by
  refine usize_to_vec_congr n ?_
  intro k hk
  rw [Nat.testBit_mod_two_pow]
  simp [hk]


theorem vec_to_usize_foldl (v : List Bool) (a : Nat) :
    v.foldl (fun acc b => 2 * acc + (if b then 1 else 0)) a
      = a * 2 ^ v.length + vec_to_usize v := by
  induction v generalizing a with
  | nil => simp [vec_to_usize]
  | cons b v ih =>
      have hv : vec_to_usize (b :: v)
          = v.foldl (fun acc b => 2 * acc + (if b then 1 else 0))
              (2 * 0 + if b then 1 else 0) := rfl
      rw [List.foldl_cons, ih, hv, ih]
      cases b <;> simp <;> ring

theorem vec_to_usize_usize_to_vec (x n : Nat) :
    vec_to_usize (usize_to_vec x n) = x % 2 ^ n := by
  induction n with
  | zero => simp [usize_to_vec, vec_to_usize, Nat.mod_one]
  | succ m ih =>
      rw [usize_to_vec_succ]
      have hcons : vec_to_usize (x.testBit m :: usize_to_vec x m)
          = (2 * 0 + if x.testBit m then 1 else 0) * 2 ^ (usize_to_vec x m).length
              + vec_to_usize (usize_to_vec x m) :=
        vec_to_usize_foldl (usize_to_vec x m) (2 * 0 + if x.testBit m then 1 else 0)
      rw [hcons, usize_to_vec_length, ih]
      have hmod : x % 2 ^ (m + 1) = x % 2 ^ m + 2 ^ m * (x / 2 ^ m % 2) := by
        rw [pow_succ, Nat.mod_mul]
      have hbit : (if x.testBit m then 1 else 0) = x / 2 ^ m % 2 := by
        rw [Nat.testBit_to_div_mod]
        have h2 : x / 2 ^ m % 2 < 2 := Nat.mod_lt _ (by omega)
        by_cases h1 : x / 2 ^ m % 2 = 1
        · simp [h1]
        · simp [h1]; omega
      rw [hbit, hmod]
      ring

theorem usize_to_vec_inj {i j n : Nat} (hi : i < 2 ^ n) (hj : j < 2 ^ n)
    (h : usize_to_vec i n = usize_to_vec j n) : i = j := by
  have hv := congrArg vec_to_usize h
  rw [vec_to_usize_usize_to_vec, vec_to_usize_usize_to_vec,
    Nat.mod_eq_of_lt hi, Nat.mod_eq_of_lt hj] at hv
  exact hv

/-! ### Zero-hash table lemmas -/

theorem new_zero_hashes_getD {F V : Type} [Inhabited F]
    (constants : F → F → F) (L : Leafable F V) (height d : Nat)
    (hd : d ≤ height) :
    (MerkleTree.new constants L height).zero_hashes.getD d default
      = zhash constants L (height - d) := by
  show (((List.range (height + 1)).map (zhash constants L)).reverse).getD d default
      = zhash constants L (height - d)
  rw [List.getD_eq_getElem?_getD]
  rw [List.getElem?_reverse (by simp; omega)]
  rw [List.getElem?_map]
  rw [List.getElem?_range (by simp; omega)]
  simp

theorem new_zh_good {F V : Type} [Inhabited F]
    (constants : F → F → F) (L : Leafable F V) (height : Nat) :
    ZhGood constants L height (MerkleTree.new constants L height).zero_hashes :=
  fun d hd => new_zero_hashes_getD constants L height d hd

theorem zh_chain {F V : Type} [Inhabited F] {constants : F → F → F}
    {L : Leafable F V} {height : Nat} {zh : List F}
    (hzh : ZhGood constants L height zh) {d : Nat} (hd : d < height) :
    zh.getD d default
      = constants (zh.getD (d + 1) default) (zh.getD (d + 1) default) := by
  rw [hzh d (by omega), hzh (d + 1) (by omega)]
  rw [show height - d = (height - (d + 1)) + 1 by omega]
  rfl

/-! ### Map lemmas -/

theorem mapInsert_self {α β : Type} [DecidableEq α] (m : α → Option β)
    (k : α) (v : β) : mapInsert m k v k = some v := by
  simp [mapInsert]

theorem mapInsert_ne {α β : Type} [DecidableEq α] (m : α → Option β)
    {q k : α} (v : β) (h : q ≠ k) : mapInsert m k v q = m q := by
  simp [mapInsert, h]

theorem nodeHashMap_congr {F : Type} [Inhabited F] (zh : List F)
    {m1 m2 : List Bool → Option F} (q : List Bool) (h : m1 q = m2 q) :
    nodeHashMap zh m1 q = nodeHashMap zh m2 q := by
  unfold nodeHashMap
  rw [h]

/-! ### updateLoop characterization -/

theorem updateLoop_cons {F : Type} [Inhabited F] (constants : F → F → F)
    (zh : List F) (nh : List Bool → Option F) (h : F) (b : Bool)
    (rest : List Bool) :
    updateLoop constants zh nh h (b :: rest)
      = updateLoop constants zh
          (mapInsert nh rest.reverse
            (if b then constants (nodeHashMap zh nh (rest.reverse ++ [!b])) h
             else constants h (nodeHashMap zh nh (rest.reverse ++ [!b]))))
          (if b then constants (nodeHashMap zh nh (rest.reverse ++ [!b])) h
           else constants h (nodeHashMap zh nh (rest.reverse ++ [!b]))) rest := by
  simp only [updateLoop]
  rw [flipLast_concat]

theorem updateLoop_fst_frame {F : Type} [Inhabited F] (constants : F → F → F)
    (zh : List F) :
    ∀ (r : List Bool) (nh : List Bool → Option F) (h : F) (q : List Bool),
      (startsWith r.reverse q → r.length ≤ q.length) →
      (updateLoop constants zh nh h r).1 q = nh q := by
  intro r
  induction r with
  | nil => intro nh h q _; rfl
  | cons b rest ih =>
      intro nh h q hq
      rw [List.reverse_cons] at hq
      rw [updateLoop_cons]
      rw [ih _ _ q ?side]
      case side =>
        intro hsw
        have h1 := startsWith_concat_of (b := b) hsw
        have h2 := hq h1
        have h3 := startsWith_length hsw
        simp only [List.length_reverse, List.length_cons] at h2 h3
        omega
      apply mapInsert_ne
      intro hqe
      have h1 : startsWith (rest.reverse ++ [b]) rest.reverse :=
        startsWith_concat_of (startsWith_refl _)
      have h2 := hq (by rw [hqe]; exact h1)
      have h3 := congrArg List.length hqe
      simp only [List.length_reverse, List.length_cons] at h2 h3
      omega

theorem updateLoop_fst_nil {F : Type} [Inhabited F] (constants : F → F → F)
    (zh : List F) :
    ∀ (r : List Bool) (nh : List Bool → Option F) (h : F), r ≠ [] →
      (updateLoop constants zh nh h r).1 []
        = some (updateLoop constants zh nh h r).2 := by
  intro r
  induction r with
  | nil => intro nh h hne; exact absurd rfl hne
  | cons b rest ih =>
      intro nh h _
      rw [updateLoop_cons]
      cases rest with
      | nil =>
          show (mapInsert nh List.nil.reverse _) [] = some _
          rw [List.reverse_nil]
          exact mapInsert_self _ _ _
      | cons c rest2 =>
          exact ih _ _ (by simp)

theorem updateLoop_key {F : Type} [Inhabited F] (constants : F → F → F)
    (zh : List F) :
    ∀ (r : List Bool) (nh : List Bool → Option F) (h : F),
      nh r.reverse = some h →
      ∀ (q : List Bool) (b : Bool), startsWith r.reverse (q ++ [b]) →
      (updateLoop constants zh nh h r).1 q
        = some (if b
            then constants (nodeHashMap zh nh (q ++ [!b]))
              (nodeHashMap zh (updateLoop constants zh nh h r).1 (q ++ [b]))
            else constants
              (nodeHashMap zh (updateLoop constants zh nh h r).1 (q ++ [b]))
              (nodeHashMap zh nh (q ++ [!b]))) := by
  intro r
  induction r with
  | nil =>
      intro nh h _ q b hsw
      have := startsWith_length hsw
      simp at this
  | cons b0 rest ih =>
      intro nh h hstore q b hsw
      rw [List.reverse_cons] at hstore hsw
      rw [updateLoop_cons]
      by_cases hlen : (q ++ [b]).length ≤ rest.length
      · -- the stored key lies strictly inside the shortened path
        have hsw' : startsWith rest.reverse (q ++ [b]) :=
          startsWith_of_concat hsw (by simpa using hlen)
        set h2 := (if b0 then constants (nodeHashMap zh nh (rest.reverse ++ [!b0])) h
             else constants h (nodeHashMap zh nh (rest.reverse ++ [!b0]))) with hh2
        have hkey := ih (mapInsert nh rest.reverse h2) h2
          (mapInsert_self nh rest.reverse h2) q b hsw'
        rw [hkey]
        have hsib : mapInsert nh rest.reverse h2
            (q ++ [!b]) = nh (q ++ [!b]) := by
          apply mapInsert_ne
          intro he
          by_cases heq : (q ++ [b]).length = rest.length
          · have hq : q ++ [b] = rest.reverse :=
              startsWith_eq_of_length hsw' (by simpa using heq)
            have hqq : q ++ [b] = q ++ [!b] := by rw [hq, ← he]
            have := List.append_inj_right hqq rfl
            simp at this
          · have h1 := congrArg List.length he
            simp only [List.length_append, List.length_singleton,
              List.length_reverse] at h1 heq hlen
            omega
        rw [nodeHashMap_congr zh (q ++ [!b]) hsib]
      · -- the stored key is the full current path itself
        have hlen1 := startsWith_length hsw
        simp only [List.length_append, List.length_singleton,
          List.length_reverse] at hlen1 hlen
        have heq : q ++ [b] = rest.reverse ++ [b0] :=
          startsWith_eq_of_length hsw (by simp; omega)
        have hqb : q = rest.reverse ∧ [b] = [b0] :=
          List.append_inj heq (by simp; omega)
        obtain ⟨hq1, hb1⟩ := hqb
        have hb : b = b0 := by simpa using hb1
        subst hq1
        rw [hb]
        set h2 := (if b0 then constants (nodeHashMap zh nh (rest.reverse ++ [!b0])) h
             else constants h (nodeHashMap zh nh (rest.reverse ++ [!b0]))) with hh2
        have hframe : (updateLoop constants zh (mapInsert nh rest.reverse h2) h2
            rest).1 rest.reverse = mapInsert nh rest.reverse h2 rest.reverse :=
          updateLoop_fst_frame constants zh rest _ _ _
            (fun _ => by simp only [List.length_reverse]; omega)
        rw [hframe, mapInsert_self]
        have hchild : (updateLoop constants zh (mapInsert nh rest.reverse h2) h2
            rest).1 (rest.reverse ++ [b0]) = nh (rest.reverse ++ [b0]) := by
          have hframe2 : (updateLoop constants zh (mapInsert nh rest.reverse h2) h2
              rest).1 (rest.reverse ++ [b0])
              = mapInsert nh rest.reverse h2 (rest.reverse ++ [b0]) :=
            updateLoop_fst_frame constants zh rest _ _ _
              (fun _ => by
                simp only [List.length_append, List.length_reverse,
                  List.length_singleton]
                omega)
          rw [hframe2]
          apply mapInsert_ne
          intro he
          have := congrArg List.length he
          simp at this
        rw [nodeHashMap_congr zh (rest.reverse ++ [b0]) hchild]
        have hval : nodeHashMap zh nh (rest.reverse ++ [b0]) = h := by
          unfold nodeHashMap
          rw [hstore]
        rw [hval]

theorem updateLoop_snd_congr {F : Type} [Inhabited F] (constants : F → F → F)
    (zh : List F) :
    ∀ (r : List Bool) (nh1 nh2 : List Bool → Option F) (h : F),
      (∀ q b, startsWith r.reverse (q ++ [b]) →
        nh1 (q ++ [!b]) = nh2 (q ++ [!b])) →
      (updateLoop constants zh nh1 h r).2
        = (updateLoop constants zh nh2 h r).2 := by
  intro r
  induction r with
  | nil => intro nh1 nh2 h _; rfl
  | cons b0 rest ih =>
      intro nh1 nh2 h hagree
      rw [updateLoop_cons, updateLoop_cons]
      have hsib : nh1 (rest.reverse ++ [!b0]) = nh2 (rest.reverse ++ [!b0]) := by
        apply hagree rest.reverse b0
        rw [List.reverse_cons]
        exact startsWith_refl _
      rw [nodeHashMap_congr zh (rest.reverse ++ [!b0]) hsib]
      apply ih
      intro q b hsw
      by_cases he : q ++ [!b] = rest.reverse
      · simp [mapInsert, he]
      · rw [mapInsert_ne _ _ he, mapInsert_ne _ _ he]
        apply hagree q b
        rw [List.reverse_cons]
        exact startsWith_concat_of hsw

/-! ### proveLoop lemmas -/

theorem proveLoop_length {F : Type} [Inhabited F] (zh : List F)
    (nh : List Bool → Option F) :
    ∀ r : List Bool, (proveLoop zh nh r).length = r.length := by
  intro r
  induction r with
  | nil => rfl
  | cons b rest ih => simp [proveLoop, ih]

theorem proveLoop_getElem {F : Type} [Inhabited F] (zh : List F)
    (nh : List Bool → Option F) :
    ∀ (r : List Bool) (k : Nat), k < r.length →
      (proveLoop zh nh r)[k]?
        = some (nodeHashMap zh nh (flipLast ((r.drop k).reverse))) := by
  intro r
  induction r with
  | nil => intro k hk; simp at hk
  | cons b rest ih =>
      intro k hk
      cases k with
      | zero => simp [proveLoop]
      | succ m =>
          have hm : m < rest.length := by simpa using hk
          show (proveLoop zh nh (b :: rest))[m + 1]? = _
          rw [show proveLoop zh nh (b :: rest)
            = nodeHashMap zh nh (flipLast (rest.reverse ++ [b]))
              :: proveLoop zh nh rest from rfl]
          rw [List.getElem?_cons_succ]
          rw [ih m hm]
          rfl

theorem proveLoop_congr {F : Type} [Inhabited F] (zh : List F)
    {nh1 nh2 : List Bool → Option F} :
    ∀ r : List Bool,
      (∀ q b, startsWith r.reverse (q ++ [b]) →
        nh1 (q ++ [!b]) = nh2 (q ++ [!b])) →
      proveLoop zh nh1 r = proveLoop zh nh2 r := by
  intro r
  induction r with
  | nil => intro _; rfl
  | cons b0 rest ih =>
      intro hagree
      show nodeHashMap zh nh1 (flipLast (rest.reverse ++ [b0])) :: _
        = nodeHashMap zh nh2 (flipLast (rest.reverse ++ [b0])) :: _
      rw [flipLast_concat]
      have hsib : nh1 (rest.reverse ++ [!b0]) = nh2 (rest.reverse ++ [!b0]) := by
        apply hagree rest.reverse b0
        rw [List.reverse_cons]
        exact startsWith_refl _
      rw [nodeHashMap_congr zh (rest.reverse ++ [!b0]) hsib]
      rw [ih ?agree]
      case agree =>
        intro q b hsw
        apply hagree q b
        rw [List.reverse_cons]
        exact startsWith_concat_of hsw

/-! ### update-level lemmas -/

theorem update_poseidon_constants {F V : Type} [Inhabited F]
    (t : MerkleTree F V) (L : Leafable F V) (index : Nat) (leaf : V) :
    (t.update L index leaf).poseidon_constants = t.poseidon_constants := rfl

theorem update_height {F V : Type} [Inhabited F]
    (t : MerkleTree F V) (L : Leafable F V) (index : Nat) (leaf : V) :
    (t.update L index leaf).height = t.height := rfl

theorem update_zero_hashes {F V : Type} [Inhabited F]
    (t : MerkleTree F V) (L : Leafable F V) (index : Nat) (leaf : V) :
    (t.update L index leaf).zero_hashes = t.zero_hashes := rfl

theorem update_leaves {F V : Type} [Inhabited F]
    (t : MerkleTree F V) (L : Leafable F V) (index : Nat) (leaf : V) :
    (t.update L index leaf).leaves = mapInsert t.leaves index leaf := rfl

theorem update_node_hashes {F V : Type} [Inhabited F]
    (t : MerkleTree F V) (L : Leafable F V) (index : Nat) (leaf : V) :
    (t.update L index leaf).node_hashes
      = (updateLoop t.poseidon_constants t.zero_hashes
          (mapInsert t.node_hashes (usize_to_vec index t.height) (L.hash leaf))
          (L.hash leaf) (usize_to_vec index t.height).reverse).1 := rfl

/-- Frame: an update rewrites no cache entry outside the initial segments of
its full path. -/
theorem update_frame {F V : Type} [Inhabited F]
    (t : MerkleTree F V) (L : Leafable F V) (index : Nat) (leaf : V)
    (q : List Bool) (hq : ¬ startsWith (usize_to_vec index t.height) q) :
    (t.update L index leaf).node_hashes q = t.node_hashes q := by
  rw [update_node_hashes]
  rw [updateLoop_fst_frame _ _ _ _ _ q ?cond]
  case cond =>
    intro hsw
    rw [List.reverse_reverse] at hsw
    exact absurd hsw hq
  apply mapInsert_ne
  intro he
  exact hq (he ▸ startsWith_refl _)

/-- The full path of the updated index holds the new leaf hash. -/
theorem update_at_path {F V : Type} [Inhabited F]
    (t : MerkleTree F V) (L : Leafable F V) (index : Nat) (leaf : V) :
    (t.update L index leaf).node_hashes (usize_to_vec index t.height)
      = some (L.hash leaf) := by
  rw [update_node_hashes]
  rw [updateLoop_fst_frame _ _ _ _ _ _ ?cond]
  case cond =>
    intro hsw
    simp [List.length_reverse, startsWith_length hsw]
  exact mapInsert_self _ _ _

theorem startsWith_drop_bit {p q : List Bool} {b : Bool}
    (h : startsWith p (q ++ [b])) : startsWith p q := by
  unfold startsWith at h ⊢
  have hlen : q.length ≤ q.length + 1 := by omega
  have h1 := congrArg (List.take q.length) h
  rw [List.take_take] at h1
  rw [List.length_append, List.length_singleton] at h1
  rw [Nat.min_eq_left hlen] at h1
  rw [h1, List.take_left]

/-- Every initial segment of the updated full path is cached afterwards. -/
theorem update_cached {F V : Type} [Inhabited F]
    (t : MerkleTree F V) (L : Leafable F V) (index : Nat) (leaf : V)
    (q : List Bool) (hq : startsWith (usize_to_vec index t.height) q) :
    (t.update L index leaf).node_hashes q ≠ none := by
  by_cases he : q = usize_to_vec index t.height
  · rw [he, update_at_path]
    simp
  · have hlt : q.length < (usize_to_vec index t.height).length := by
      have h1 := startsWith_length hq
      rcases Nat.lt_or_ge q.length (usize_to_vec index t.height).length with h2 | h2
      · exact h2
      · exact absurd (startsWith_eq_of_length hq (by omega)) he
    obtain ⟨b, hb⟩ := startsWith_concat_elim hq hlt
    rw [update_node_hashes]
    rw [updateLoop_key _ _ _ _ _ ?store q b ?sw]
    case store =>
      rw [List.reverse_reverse]
      exact mapInsert_self _ _ _
    case sw =>
      rw [List.reverse_reverse]
      exact hb
    simp

theorem wf_new {F V : Type} [Inhabited F] (constants : F → F → F)
    (L : Leafable F V) (height : Nat) :
    WF L (MerkleTree.new constants L height) := by
  refine ⟨new_zh_good constants L height, ?_, ?_⟩
  · intro q b hne
    exact absurd rfl hne
  · intro p h _ hp
    exact absurd hp (by simp [MerkleTree.new])

theorem wf_update {F V : Type} [Inhabited F]
    {t : MerkleTree F V} {L : Leafable F V} (index : Nat) (leaf : V)
    (hwf : WF L t) : WF L (t.update L index leaf) := by
  constructor
  · rw [update_poseidon_constants, update_height, update_zero_hashes]
    exact hwf.zh_good
  · -- the cache stays ancestor-closed
    intro q b hne
    by_cases hqb : startsWith (usize_to_vec index t.height) (q ++ [b])
    · exact update_cached t L index leaf q (startsWith_drop_bit hqb)
    · rw [update_frame t L index leaf _ hqb] at hne
      have hq0 := hwf.closed q b hne
      by_cases hq : startsWith (usize_to_vec index t.height) q
      · exact update_cached t L index leaf q hq
      · rw [update_frame t L index leaf q hq]
        exact hq0
  · -- the hash invariant holds at every cached internal path
    intro q h hlen hq
    rw [update_height] at hlen
    by_cases hsw : startsWith (usize_to_vec index t.height) q
    · -- q lies on the updated path
      have hlt : q.length < (usize_to_vec index t.height).length := by
        rwa [usize_to_vec_length]
      obtain ⟨b, hb⟩ := startsWith_concat_elim hsw hlt
      have hkey := updateLoop_key t.poseidon_constants t.zero_hashes
        (usize_to_vec index t.height).reverse
        (mapInsert t.node_hashes (usize_to_vec index t.height) (L.hash leaf))
        (L.hash leaf)
        (by rw [List.reverse_reverse]; exact mapInsert_self _ _ _)
        q b (by rw [List.reverse_reverse]; exact hb)
      rw [← update_node_hashes] at hkey
      rw [hkey] at hq
      have hnsib := not_startsWith_sibling hb
      have hsib : mapInsert t.node_hashes (usize_to_vec index t.height)
          (L.hash leaf) (q ++ [!b])
          = (t.update L index leaf).node_hashes (q ++ [!b]) := by
        rw [update_frame t L index leaf _ hnsib]
        apply mapInsert_ne
        intro he
        exact hnsib (he ▸ startsWith_refl _)
      rw [nodeHashMap_congr t.zero_hashes (q ++ [!b]) hsib] at hq
      have hval := Option.some.inj hq
      rw [← hval]
      cases b with
      | true => rfl
      | false => rfl
    · -- q is untouched; so are both its children
      rw [update_frame t L index leaf q hsw] at hq
      have hstep := hwf.invA q h hlen hq
      have hchild : ∀ c : Bool,
          (t.update L index leaf).get_node_hash (q ++ [c])
            = t.get_node_hash (q ++ [c]) := by
        intro c
        have hnc : ¬ startsWith (usize_to_vec index t.height) (q ++ [c]) := by
          intro hcc
          exact hsw (startsWith_drop_bit hcc)
        show nodeHashMap _ _ _ = nodeHashMap _ _ _
        rw [update_zero_hashes]
        exact nodeHashMap_congr _ _ (update_frame t L index leaf _ hnc)
      rw [update_poseidon_constants, hchild false, hchild true]
      exact hstep

theorem wf_of_reachable {F V : Type} [Inhabited F]
    {L : Leafable F V} {t : MerkleTree F V} (hr : Reachable L t) : WF L t := by
  induction hr with
  | new constants height => exact wf_new constants L height
  | update index leaf _ ih => exact wf_update index leaf ih
  | remove index _ ih => exact wf_update index _ ih

theorem inv_leaf_new {F V : Type} [Inhabited F] (constants : F → F → F)
    (L : Leafable F V) (height : Nat) :
    InvLeaf L (MerkleTree.new constants L height) := by
  intro i _
  show (MerkleTree.new constants L height).zero_hashes.getD
      (usize_to_vec i height).length default
    = L.hash ((MerkleTree.new constants L height).get_leaf L i)
  rw [usize_to_vec_length]
  rw [new_zero_hashes_getD constants L height height (Nat.le_refl _), Nat.sub_self]
  rfl

theorem inv_leaf_update {F V : Type} [Inhabited F]
    {t : MerkleTree F V} {L : Leafable F V} (index : Nat) (leaf : V)
    (hin : index < 2 ^ t.height) (hleaf : InvLeaf L t) :
    InvLeaf L (t.update L index leaf) := by
  intro i hi
  rw [update_height] at hi
  by_cases he : i = index
  · subst he
    have hpath := update_at_path t L i leaf
    show nodeHashMap _ _ _ = _
    rw [update_zero_hashes, update_height]
    unfold nodeHashMap
    rw [hpath]
    show L.hash leaf = L.hash ((t.update L i leaf).get_leaf L i)
    unfold MerkleTree.get_leaf
    rw [update_leaves, mapInsert_self]
  · have hne : usize_to_vec i t.height ≠ usize_to_vec index t.height := by
      intro hp
      exact he (usize_to_vec_inj hi hin hp)
    have hnsw : ¬ startsWith (usize_to_vec index t.height)
        (usize_to_vec i t.height) := by
      intro hsw
      exact hne (startsWith_eq_of_length hsw
        (by rw [usize_to_vec_length, usize_to_vec_length]))
    have hframe := update_frame t L index leaf _ hnsw
    show nodeHashMap _ _ _ = _
    rw [update_zero_hashes, update_height]
    rw [nodeHashMap_congr t.zero_hashes _ hframe]
    have hl : (t.update L index leaf).get_leaf L i = t.get_leaf L i := by
      unfold MerkleTree.get_leaf
      rw [update_leaves, mapInsert_ne _ _ he]
    rw [hl]
    exact hleaf i hi

theorem wf_of_reachableIn {F V : Type} [Inhabited F]
    {L : Leafable F V} {t : MerkleTree F V} (hr : ReachableIn L t) :
    WF L t ∧ InvLeaf L t := by
  induction hr with
  | new constants height =>
      exact ⟨wf_new constants L height, inv_leaf_new constants L height⟩
  | update index leaf hin _ ih =>
      exact ⟨wf_update index leaf ih.1, inv_leaf_update index leaf hin ih.2⟩

/-- On a well-formed tree, every internal node hash is the pair hash of its
two children's node hashes (cached or zero-subtree). -/
theorem parent_child {F V : Type} [Inhabited F]
    {L : Leafable F V} {t : MerkleTree F V} (hwf : WF L t)
    (q : List Bool) (hlen : q.length < t.height) :
    t.get_node_hash q
      = t.poseidon_constants (t.get_node_hash (q ++ [false]))
        (t.get_node_hash (q ++ [true])) := by
  cases hnq : t.node_hashes q with
  | some h =>
      have hstep := hwf.invA q h hlen hnq
      show nodeHashMap _ _ _ = _
      unfold nodeHashMap
      rw [hnq]
      exact hstep
  | none =>
      have hchild : ∀ c : Bool, t.node_hashes (q ++ [c]) = none := by
        intro c
        cases hc : t.node_hashes (q ++ [c]) with
        | none => rfl
        | some hx =>
            exact absurd hnq (hwf.closed q c (by rw [hc]; simp))
      have hcval : ∀ c : Bool, t.get_node_hash (q ++ [c])
          = t.zero_hashes.getD (q.length + 1) default := by
        intro c
        show nodeHashMap _ _ _ = _
        unfold nodeHashMap
        rw [hchild c]
        rw [List.length_append, List.length_singleton]
      have hqval : t.get_node_hash q = t.zero_hashes.getD q.length default := by
        show nodeHashMap _ _ _ = _
        unfold nodeHashMap
        rw [hnq]
      rw [hqval, hcval false, hcval true]
      exact zh_chain hwf.zh_good hlen

/-- The root stored by the update walk: `get_root` after `update` is the
final hash of the walk, the value the walk stores at the empty path. -/
theorem update_get_root {F V : Type} [Inhabited F]
    (t : MerkleTree F V) (L : Leafable F V) (index : Nat) (leaf : V) :
    (t.update L index leaf).get_root
      = (updateLoop t.poseidon_constants t.zero_hashes
          (mapInsert t.node_hashes (usize_to_vec index t.height) (L.hash leaf))
          (L.hash leaf) (usize_to_vec index t.height).reverse).2 := by
  cases hr : (usize_to_vec index t.height).reverse with
  | nil =>
      have hp : usize_to_vec index t.height = [] := by
        have h2 := congrArg List.reverse hr
        rwa [List.reverse_reverse] at h2
      unfold MerkleTree.get_root MerkleTree.get_node_hash nodeHashMap
      rw [update_node_hashes, hp]
      rfl
  | cons b rest =>
      have hnil := updateLoop_fst_nil t.poseidon_constants t.zero_hashes
        (usize_to_vec index t.height).reverse
        (mapInsert t.node_hashes (usize_to_vec index t.height) (L.hash leaf))
        (L.hash leaf) (by rw [hr]; simp)
      unfold MerkleTree.get_root MerkleTree.get_node_hash nodeHashMap
      rw [update_node_hashes, hnil, hr]

/-! ### Reconstruction lemmas -/

theorem internal_output_single {F : Type} [Inhabited F] (C : F → F → F)
    (s : F) (b : Bool) (x : F) :
    (InternalHashCircuit.mk C s b).output [x] = [if b then C s x else C x s] := by
  cases b <;> rfl

theorem prove_length {F V : Type} [Inhabited F] (t : MerkleTree F V)
    (index : Nat) : (t.prove index).length = t.height := by
  show (proveLoop _ _ _).length = _
  rw [proveLoop_length, List.length_reverse, usize_to_vec_length]

/-- Folding the conditional-swap-then-hash step over the sibling hashes of a
path, starting from that path's node hash, lands on the node hash of the
empty path (the root). -/
theorem reconstruct_fold {F V : Type} [Inhabited F]
    {L : Leafable F V} {t : MerkleTree F V} (hwf : WF L t) :
    ∀ r : List Bool, r.length ≤ t.height →
      (r.zip (proveLoop t.zero_hashes t.node_hashes r)).foldl
        (fun result p =>
          (InternalHashCircuit.mk t.poseidon_constants p.2 p.1).output result)
        [t.get_node_hash r.reverse]
      = [t.get_node_hash []] := by
  intro r
  induction r with
  | nil => intro _; rfl
  | cons b rest ih =>
      intro hle
      have hlen : rest.length < t.height := by
        simp only [List.length_cons] at hle
        omega
      have hploop : proveLoop t.zero_hashes t.node_hashes (b :: rest)
          = t.get_node_hash (rest.reverse ++ [!b])
            :: proveLoop t.zero_hashes t.node_hashes rest := by
        show nodeHashMap _ _ (flipLast (rest.reverse ++ [b])) :: _ = _
        rw [flipLast_concat]
        rfl
      have hrev : (b :: rest).reverse = rest.reverse ++ [b] :=
        List.reverse_cons _ _
      rw [hploop, hrev]
      simp only [List.zip_cons_cons, List.foldl_cons]
      rw [internal_output_single]
      have hpc := parent_child hwf rest.reverse
        (by rw [List.length_reverse]; exact hlen)
      have hfirst : (if b
          then t.poseidon_constants (t.get_node_hash (rest.reverse ++ [!b]))
            (t.get_node_hash (rest.reverse ++ [b]))
          else t.poseidon_constants (t.get_node_hash (rest.reverse ++ [b]))
            (t.get_node_hash (rest.reverse ++ [!b])))
          = t.get_node_hash rest.reverse := by
        cases b with
        | true => rw [hpc]; rfl
        | false => rw [hpc]; rfl
      rw [hfirst]
      exact ih (by omega)

theorem inclusion_output_def {F : Type} [Inhabited F] (C : F → F → F)
    (sib : List F) (i : Nat) (v : F) :
    (MerkleInclusionCircuit.mk C sib i v).output
      = [(((usize_to_vec i sib.length).reverse.zip sib).foldl
          (fun result p =>
            (InternalHashCircuit.mk C p.2 p.1).output result) [v]).getD 0
          default] := rfl

/-- On a well-formed tree with correct leaf hashes, the plain inclusion
reconstruction at `(hash of stored leaf, index, prove index)` returns the
root. -/
theorem inclusion_output_root {F V : Type} [Inhabited F]
    {L : Leafable F V} {t : MerkleTree F V} (hwf : WF L t)
    (hleaf : InvLeaf L t) (i : Nat) (hi : i < 2 ^ t.height) :
    (MerkleInclusionCircuit.mk t.poseidon_constants (t.prove i) i
      (L.hash (t.get_leaf L i))).output = [t.get_root] := by
  rw [inclusion_output_def]
  rw [prove_length]
  rw [show L.hash (t.get_leaf L i) = t.get_node_hash (usize_to_vec i t.height)
    from (hleaf i hi).symm]
  have hfold := reconstruct_fold hwf (usize_to_vec i t.height).reverse
    (by rw [List.length_reverse, usize_to_vec_length])
  rw [List.reverse_reverse] at hfold
  rw [show t.prove i
    = proveLoop t.zero_hashes t.node_hashes (usize_to_vec i t.height).reverse
    from rfl]
  rw [hfold]
  rfl

theorem internal_synthesize_eq_output {F : Type} [Inhabited F]
    (c : InternalHashCircuit F) (z : List F) :
    c.synthesize z = c.output z := by
  unfold InternalHashCircuit.synthesize InternalHashCircuit.output
    conditionally_reverse
  cases hb : c.lr_bit <;> simp [hb]

/-- `prove` at the updated index reads only sibling keys, none of which the
update rewrote. -/
theorem update_prove_self {F V : Type} [Inhabited F] (t : MerkleTree F V)
    (L : Leafable F V) (index : Nat) (leaf : V) :
    (t.update L index leaf).prove index = t.prove index := by
  show proveLoop (t.update L index leaf).zero_hashes
      (t.update L index leaf).node_hashes
      (usize_to_vec index (t.update L index leaf).height).reverse
    = proveLoop t.zero_hashes t.node_hashes
      (usize_to_vec index t.height).reverse
  rw [update_zero_hashes, update_height]
  apply proveLoop_congr
  intro q b hsw
  rw [List.reverse_reverse] at hsw
  exact update_frame t L index leaf _ (not_startsWith_sibling hsw)

/-- Updating the same index with the same leaf twice gives the same root as
doing it once: the second walk reads only sibling keys, which the first walk
left untouched. -/
theorem update_idem_root {F V : Type} [Inhabited F] (t : MerkleTree F V)
    (L : Leafable F V) (index : Nat) (leaf : V) :
    ((t.update L index leaf).update L index leaf).get_root
      = (t.update L index leaf).get_root := by
  rw [update_get_root (t.update L index leaf) L index leaf]
  rw [update_get_root t L index leaf]
  rw [update_height, update_zero_hashes, update_poseidon_constants]
  apply updateLoop_snd_congr
  intro q b hsw
  rw [List.reverse_reverse] at hsw
  have hnsib := not_startsWith_sibling hsw
  have hne : q ++ [!b] ≠ usize_to_vec index t.height := by
    intro he
    exact hnsib (he ▸ startsWith_refl _)
  rw [mapInsert_ne _ _ hne, mapInsert_ne _ _ hne]
  exact update_frame t L index leaf _ hnsib

/-! ### Claim theorems -/

/-- Claim C1: for every tree obtained from `MerkleTree::new` by update calls
at in-range indices and every in-range index i, the plain reconstruction
`MerkleInclusionCircuit::output` at (hash of `get_leaf i`, i, `prove i`)
equals `[get_root]`; the fresh tree and the state right after an update are
instances of the reachability hypothesis. -/
theorem claim_C1_inclusion_matches_root {F V : Type} [Inhabited F]
    (L : Leafable F V) (t : MerkleTree F V) (hr : ReachableIn L t)
    (i : Nat) (hi : i < 2 ^ t.height) :
    (MerkleInclusionCircuit.mk t.poseidon_constants (t.prove i) i
      (L.hash (t.get_leaf L i))).output = [t.get_root] :=
  inclusion_output_root (wf_of_reachableIn hr).1 (wf_of_reachableIn hr).2 i hi

theorem claim_C1_witness :
    ReachableIn natLeaf exTree2 ∧ 1 < 2 ^ exTree2.height ∧
    (MerkleInclusionCircuit.mk exTree2.poseidon_constants (exTree2.prove 1) 1
      (natLeaf.hash (exTree2.get_leaf natLeaf 1))).output = [exTree2.get_root] := by
  have hreach : ReachableIn natLeaf exTree2 :=
    ReachableIn.update 1 7 (by decide) (ReachableIn.new natHash 2)
  exact ⟨hreach, by decide,
    claim_C1_inclusion_matches_root natLeaf exTree2 hreach 1 (by decide)⟩

/-- Claim C2: on every tree reachable from `new` by update/remove calls, each
cached path p shorter than the height stores exactly the pair hash of its two
children's node hashes (cache entry if present, zero-hash entry for depth
|p|+1 otherwise); preservation under every update is the inductive step. -/
theorem claim_C2_cache_invariant {F V : Type} [Inhabited F]
    (L : Leafable F V) (t : MerkleTree F V) (hr : Reachable L t)
    (p : List Bool) (h : F) (hlen : p.length < t.height)
    (hp : t.node_hashes p = some h) :
    h = t.poseidon_constants (t.get_node_hash (p ++ [false]))
      (t.get_node_hash (p ++ [true])) :=
  (wf_of_reachable hr).invA p h hlen hp

theorem claim_C2_witness :
    Reachable natLeaf exTree1 ∧ ([] : List Bool).length < exTree1.height ∧
    exTree1.node_hashes [] = some 11 ∧
    11 = exTree1.poseidon_constants (exTree1.get_node_hash ([] ++ [false]))
      (exTree1.get_node_hash ([] ++ [true])) := by
  have hreach : Reachable natLeaf exTree1 :=
    Reachable.update 0 5 (Reachable.new natHash 1)
  exact ⟨hreach, by decide, by decide,
    claim_C2_cache_invariant natLeaf exTree1 hreach [] 11 (by decide) (by decide)⟩

/-- Claim C3 counterexample: index 2 is out of range for height 1, yet it is
neither rejected nor distinguished from index 0: the path codec masks it to
the same path and `update` happily hashes along that path. -/
theorem claim_C3_counterexample :
    usize_to_vec 2 1 = usize_to_vec 0 1 ∧
    ((MerkleTree.new natHash natLeaf 1).update natLeaf 2 9).get_root
      = ((MerkleTree.new natHash natLeaf 1).update natLeaf 0 9).get_root := by
  exact ⟨by decide, by decide⟩

/-- Claim C3 amended: `usize_to_vec` performs no range check and returns no
error; it keeps exactly the low H bits of the index (so out-of-range indices
are implicitly masked), always producing a length-H path. -/
theorem claim_C3_amended (x length : Nat) :
    usize_to_vec x length = usize_to_vec (x % 2 ^ length) length ∧
    (usize_to_vec x length).length = length :=
  ⟨usize_to_vec_mod x length, usize_to_vec_length x length⟩

/-- Claim C4: the final hash of the update walk is stored at the empty path
and is the value `get_root` returns afterwards — evaluated at a concrete
input; the Rust `update` itself has unit return type and discards this value
instead of returning it. -/
theorem claim_C4_root_stored_at_empty_path :
    exTree2.node_hashes [] = some exTree2.get_root := by decide

/-- Claim C5: an update rewrites cache entries only at initial segments of
the updated full path; every other node hash is unchanged and in particular
`prove` at the updated index is identical before and after. -/
theorem claim_C5_update_frame {F V : Type} [Inhabited F]
    (L : Leafable F V) (t : MerkleTree F V) (i : Nat) (v : V)
    (_hi : i < 2 ^ t.height) :
    (∀ q, ¬ startsWith (usize_to_vec i t.height) q →
      (t.update L i v).node_hashes q = t.node_hashes q) ∧
    (t.update L i v).prove i = t.prove i :=
  ⟨fun q hq => update_frame t L i v q hq, update_prove_self t L i v⟩

theorem claim_C5_witness :
    1 < 2 ^ (MerkleTree.new natHash natLeaf 2).height ∧
    ((∀ q, ¬ startsWith (usize_to_vec 1 (MerkleTree.new natHash natLeaf 2).height) q →
      ((MerkleTree.new natHash natLeaf 2).update natLeaf 1 7).node_hashes q
        = (MerkleTree.new natHash natLeaf 2).node_hashes q) ∧
    ((MerkleTree.new natHash natLeaf 2).update natLeaf 1 7).prove 1
      = (MerkleTree.new natHash natLeaf 2).prove 1) :=
  ⟨by decide,
    claim_C5_update_frame natLeaf (MerkleTree.new natHash natLeaf 2) 1 7 (by decide)⟩

/-- Claim C6: `prove index` is a list of exactly H sibling hashes in
leaf-adjacent-first order: entry k is the sibling hash of the length (H − k)
initial segment of the index's bit path, so the depth-H sibling comes first
and the depth-1 sibling last (`prove` takes the tree by shared reference and
returns a fresh list, mutating nothing). -/
theorem claim_C6_prove_shape {F V : Type} [Inhabited F]
    (t : MerkleTree F V) (i : Nat) (_hi : i < 2 ^ t.height) :
    (t.prove i).length = t.height ∧
    ∀ k, k < t.height →
      (t.prove i)[k]?
        = some (t.get_sibling_hash
            ((usize_to_vec i t.height).take (t.height - k))) := by
  refine ⟨prove_length t i, ?_⟩
  intro k hk
  have hk2 : k < (usize_to_vec i t.height).reverse.length := by
    rw [List.length_reverse, usize_to_vec_length]
    exact hk
  have hget := proveLoop_getElem t.zero_hashes t.node_hashes
    (usize_to_vec i t.height).reverse k hk2
  rw [show t.prove i
    = proveLoop t.zero_hashes t.node_hashes (usize_to_vec i t.height).reverse
    from rfl]
  rw [hget]
  rw [List.drop_reverse, List.reverse_reverse]
  rw [usize_to_vec_length]
  rfl

theorem claim_C6_witness :
    1 < 2 ^ exTree2.height ∧
    ((exTree2.prove 1).length = exTree2.height ∧
    ∀ k, k < exTree2.height →
      (exTree2.prove 1)[k]?
        = some (exTree2.get_sibling_hash
            ((usize_to_vec 1 exTree2.height).take (exTree2.height - k)))) :=
  ⟨by decide, claim_C6_prove_shape exTree2 1 (by decide)⟩

/-- Claim C7: updating the same in-range index with the same value twice in
a row yields the same root as updating once. -/
theorem claim_C7_update_idempotent {F V : Type} [Inhabited F]
    (L : Leafable F V) (t : MerkleTree F V) (i : Nat) (v : V)
    (_hi : i < 2 ^ t.height) :
    ((t.update L i v).update L i v).get_root = (t.update L i v).get_root :=
  update_idem_root t L i v

theorem claim_C7_witness :
    0 < 2 ^ (MerkleTree.new natHash natLeaf 2).height ∧
    (((MerkleTree.new natHash natLeaf 2).update natLeaf 0 5).update natLeaf 0 5).get_root
      = ((MerkleTree.new natHash natLeaf 2).update natLeaf 0 5).get_root :=
  ⟨by decide,
    claim_C7_update_idempotent natLeaf (MerkleTree.new natHash natLeaf 2) 0 5 (by decide)⟩

/-- Claim C8: the update step has arity 1, and given previous output `[z]`
its native evaluation succeeds exactly when the root reconstructed from
`old_value` equals `z` (an `old_value` reconstructing any other root fails
the check), in which case it returns the single-element output holding the
root reconstructed from `new_value` with the same index and siblings. -/
theorem claim_C8_process_output {F : Type} [Inhabited F] [DecidableEq F]
    (c : MerkleProcessCircuit F) (z : F) :
    c.arity = 1 ∧
    c.output [z]
      = (if (MerkleInclusionCircuit.mk c.constants c.siblings c.index
            c.old_value).output.getD 0 default = z
        then some [(MerkleInclusionCircuit.mk c.constants c.siblings c.index
            c.new_value).output.getD 0 default]
        else none) :=
  ⟨rfl, rfl⟩

/-- Claim C9: the constrained form of the inclusion reconstruction computes,
wire for wire, the same root as the plain form, on every input. -/
theorem claim_C9_synthesize_eq_output {F : Type} [Inhabited F]
    (c : MerkleInclusionCircuit F) :
    c.synthesize = c.output := by
  unfold MerkleInclusionCircuit.synthesize MerkleInclusionCircuit.output
  have hfun : (fun (result : List F) (p : Bool × F) =>
      (InternalHashCircuit.mk c.constants p.2 p.1).synthesize result)
      = (fun (result : List F) (p : Bool × F) =>
      (InternalHashCircuit.mk c.constants p.2 p.1).output result) := by
    funext result p
    exact internal_synthesize_eq_output _ _
  rw [hfun]

/-- Claim C10: the path codec masks to the low H bits, so an out-of-range
update recomputes exactly the node hashes of the masked index (same root and
same proofs afterwards) while the leaf map stores the value under the
unmasked key, leaving the masked index's leaf unchanged. -/
theorem claim_C10_masking {F V : Type} [Inhabited F]
    (L : Leafable F V) (t : MerkleTree F V) (i : Nat) (v : V)
    (hi : 2 ^ t.height ≤ i) :
    (∀ x n : Nat, usize_to_vec x n = usize_to_vec (x % 2 ^ n) n) ∧
    (t.update L i v).node_hashes = (t.update L (i % 2 ^ t.height) v).node_hashes ∧
    (t.update L i v).get_root = (t.update L (i % 2 ^ t.height) v).get_root ∧
    (∀ j, (t.update L i v).prove j = (t.update L (i % 2 ^ t.height) v).prove j) ∧
    (t.update L i v).get_leaf L i = v ∧
    (t.update L i v).get_leaf L (i % 2 ^ t.height)
      = t.get_leaf L (i % 2 ^ t.height) := by
  have hnh : (t.update L i v).node_hashes
      = (t.update L (i % 2 ^ t.height) v).node_hashes := by
    rw [update_node_hashes, update_node_hashes, usize_to_vec_mod i t.height]
  have hmodlt : i % 2 ^ t.height < i :=
    Nat.lt_of_lt_of_le (Nat.mod_lt i (by positivity)) hi
  refine ⟨usize_to_vec_mod, hnh, ?_, ?_, ?_, ?_⟩
  · show nodeHashMap t.zero_hashes (t.update L i v).node_hashes []
      = nodeHashMap t.zero_hashes (t.update L (i % 2 ^ t.height) v).node_hashes []
    rw [hnh]
  · intro j
    show proveLoop t.zero_hashes (t.update L i v).node_hashes
        (usize_to_vec j t.height).reverse
      = proveLoop t.zero_hashes (t.update L (i % 2 ^ t.height) v).node_hashes
        (usize_to_vec j t.height).reverse
    rw [hnh]
  · show (match mapInsert t.leaves i v i with
      | some leaf => leaf
      | none => L.empty_leaf) = v
    rw [mapInsert_self]
  · show (match mapInsert t.leaves i v (i % 2 ^ t.height) with
      | some leaf => leaf
      | none => L.empty_leaf) = t.get_leaf L (i % 2 ^ t.height)
    rw [mapInsert_ne _ _ (Nat.ne_of_lt hmodlt)]
    rfl

theorem claim_C10_witness :
    2 ^ (MerkleTree.new natHash natLeaf 1).height ≤ 2 ∧
    ((∀ x n : Nat, usize_to_vec x n = usize_to_vec (x % 2 ^ n) n) ∧
    ((MerkleTree.new natHash natLeaf 1).update natLeaf 2 9).node_hashes
      = ((MerkleTree.new natHash natLeaf 1).update natLeaf
          (2 % 2 ^ (MerkleTree.new natHash natLeaf 1).height) 9).node_hashes ∧
    ((MerkleTree.new natHash natLeaf 1).update natLeaf 2 9).get_root
      = ((MerkleTree.new natHash natLeaf 1).update natLeaf
          (2 % 2 ^ (MerkleTree.new natHash natLeaf 1).height) 9).get_root ∧
    (∀ j, ((MerkleTree.new natHash natLeaf 1).update natLeaf 2 9).prove j
      = ((MerkleTree.new natHash natLeaf 1).update natLeaf
          (2 % 2 ^ (MerkleTree.new natHash natLeaf 1).height) 9).prove j) ∧
    ((MerkleTree.new natHash natLeaf 1).update natLeaf 2 9).get_leaf natLeaf 2 = 9 ∧
    ((MerkleTree.new natHash natLeaf 1).update natLeaf 2 9).get_leaf natLeaf
        (2 % 2 ^ (MerkleTree.new natHash natLeaf 1).height)
      = (MerkleTree.new natHash natLeaf 1).get_leaf natLeaf
          (2 % 2 ^ (MerkleTree.new natHash natLeaf 1).height)) :=
  ⟨by decide,
    claim_C10_masking natLeaf (MerkleTree.new natHash natLeaf 1) 2 9 (by decide)⟩

theorem claim_C3_witness :
    usize_to_vec 2 1 = usize_to_vec (2 % 2 ^ 1) 1 ∧
    (usize_to_vec 2 1).length = 1 :=
  claim_C3_amended 2 1

theorem claim_C8_witness :
    (MerkleProcessCircuit.mk natHash (exTree1.prove 0) 0 5 6).arity = 1 ∧
    (MerkleProcessCircuit.mk natHash (exTree1.prove 0) 0 5 6).output
        [exTree1.get_root]
      = (if (MerkleInclusionCircuit.mk natHash (exTree1.prove 0) 0
            5).output.getD 0 default = exTree1.get_root
        then some [(MerkleInclusionCircuit.mk natHash (exTree1.prove 0) 0
            6).output.getD 0 default]
        else none) :=
  claim_C8_process_output
    (MerkleProcessCircuit.mk natHash (exTree1.prove 0) 0 5 6) exTree1.get_root

theorem claim_C9_witness :
    (MerkleInclusionCircuit.mk natHash (exTree1.prove 0) 0 5).synthesize
      = (MerkleInclusionCircuit.mk natHash (exTree1.prove 0) 0 5).output :=
  claim_C9_synthesize_eq_output _
